import Mathlib

/-!
Verification development for the uplive-video-translator repository.

The Python sources are shallowly embedded as follows:
* Python `float` values (times in seconds, durations, ratios) are modelled as
  exact rationals `ℚ`.
* A pydub `AudioSegment` is modelled by its exact duration in milliseconds
  (a rational, `frame_count / frame_rate * 1000`) together with its frame
  rate; `set_frame_rate` (resampling back to the original rate) is modelled
  as exactly duration-preserving, and pydub's `len` (whole milliseconds,
  `round(duration_seconds * 1000)`) uses Python's round-half-to-even.
* Python strings in the translation-response parser are modelled as
  `List Char`; `str.strip` trims whitespace on both ends, `str.splitlines`
  splits on newline characters.
* Python `int(x)` on a float truncates toward zero; `divmod` on integers is
  floor division and remainder (`Int.ediv`/`Int.emod` for positive divisors).
-/

/-- Python `round` on a rational: round half to even (banker's rounding),
as used by pydub's `AudioSegment.__len__` and by `format_timestamp`.
`Rat.floor` is used instead of the `⌊⌋` notation so that the kernel can
evaluate the definition on concrete inputs. -/
def pyRound (q : ℚ) : ℤ :=
  let f := q.floor
  if q - f < 1/2 then f
  else if q - f > 1/2 then f + 1
  else if f % 2 = 0 then f else f + 1

/-- Python `int()` applied to a float: truncation toward zero. -/
def pyInt (q : ℚ) : ℤ := if 0 ≤ q then q.floor else -((-q).floor)

/-- Model of a pydub `AudioSegment`: its exact duration in milliseconds and
its frame rate.  A real segment with `n` frames at rate `r` has
`durMs = n * 1000 / r`. -/
structure AudioSeg where
  durMs : ℚ
  frameRate : ℕ
deriving DecidableEq

/-- pydub `len(piece)`: the duration rounded to whole milliseconds. -/
def lenMs (a : AudioSeg) : ℤ := pyRound a.durMs

/-- The clamp of `src/tts.py:44-48`: limit the speed-change
`len(piece)/target_ms` quotient to `[1 - 0.25, 1 + 0.25]`. -/
def clampQuot (q : ℚ) : ℚ :=
  if q > 1 + 1/4 then 1 + 1/4 else if q < 1 - 1/4 then 1 - 1/4 else q

/-- Model of `_time_stretch_to_duration` (src/tts.py:27-56).  The spawn with
a `frame_rate` override keeps the raw frames, so the duration scales by
`frame_rate / new_frame_rate`; `set_frame_rate` back to the original rate is
modelled as exactly duration-preserving. -/
def timeStretchToDuration (piece : AudioSeg) (targetMs : ℤ) : AudioSeg :=
  if targetMs ≤ 0 ∨ lenMs piece = 0 then piece
  else
    let q : ℚ := (lenMs piece : ℚ) / (targetMs : ℚ)
    if |q - 1| < 1/20 then piece
    else
      let r := clampQuot q
      let newFrameRate : ℤ := pyInt ((piece.frameRate : ℚ) * r)
      if newFrameRate ≤ 0 then piece
      else ⟨piece.durMs * piece.frameRate / newFrameRate, piece.frameRate⟩

/-- Model of the `SubtitleSegment` dataclass (src/transcription.py:7-15).
The Python field `end` is a Lean keyword and is rendered `endTime`. -/
structure Segment where
  index : ℕ
  start : ℚ
  endTime : ℚ
  text : String
  translated_text : Option String
  actual_start : Option ℚ
  actual_end : Option ℚ
deriving DecidableEq

/-- Nominal-start ordering on (segment, clip) pairs: the key of both sorts
in `synthesize_translated_audio` (`key=lambda s: s.start`). -/
def pieceLe (a b : Segment × AudioSeg) : Prop := a.1.start ≤ b.1.start

/-- Strict version of `pieceLe`, used to show sorted outputs are unique when
the nominal starts are pairwise distinct. -/
def pieceLt (a b : Segment × AudioSeg) : Prop := a.1.start < b.1.start

instance : DecidableRel pieceLe := fun a b =>
  inferInstanceAs (Decidable (a.1.start ≤ b.1.start))

instance : DecidableRel pieceLt := fun a b =>
  inferInstanceAs (Decidable (a.1.start < b.1.start))

instance : IsTotal (Segment × AudioSeg) pieceLe := ⟨fun a b => le_total a.1.start b.1.start⟩

instance : IsTrans (Segment × AudioSeg) pieceLe := ⟨fun _ _ _ h1 h2 => le_trans h1 h2⟩

instance : IsAntisymm (Segment × AudioSeg) pieceLt :=
  ⟨fun _ _ h1 h2 => absurd h2 (not_lt.2 (le_of_lt h1))⟩

/-- The sequential assembly loop of `synthesize_translated_audio`
(src/tts.py:95-118): walk the pairs in order, keeping a running cursor
`current_pos_ms`, gently time-stretching each clip toward its segment's
nominal span, recording achieved timing, and advancing by `len(adjusted)`. -/
def sequencePieces : List (Segment × AudioSeg) → ℤ → List (Segment × AudioSeg)
  | [], _ => []
  | (seg, piece) :: rest, posMs =>
    let segDurMs : ℤ := pyInt ((seg.endTime - seg.start) * 1000)
    let adjusted := if segDurMs > 0 then timeStretchToDuration piece segDurMs else piece
    let aStart : ℚ := (posMs : ℚ) / 1000
    let aEnd : ℚ := aStart + (lenMs adjusted : ℚ) / 1000
    ({ seg with actual_start := some aStart, actual_end := some aEnd }, adjusted)
      :: sequencePieces rest (posMs + lenMs adjusted)

/-- pydub concatenation `a + b`: durations add (the frame rate is resolved
to the wider of the two operands). -/
def addSeg (a b : AudioSeg) : AudioSeg := ⟨a.durMs + b.durMs, max a.frameRate b.frameRate⟩

/-- Model of `sum(audio_segments)` with the empty-list fallback
`AudioSegment.silent(duration=0)` (src/tts.py:121-124); pydub's silent
generator defaults to an 11025 Hz frame rate. -/
def combineSegs : List AudioSeg → AudioSeg
  | [] => ⟨0, 11025⟩
  | a :: rest => rest.foldl addSeg a

/-- Model of the assembly phase of `synthesize_translated_audio`
(src/tts.py:92-128): the `pieces` argument is the list of (segment, clip)
pairs collected from the worker pool in completion order; the function
re-sorts by nominal start (Python's stable `sorted` is modelled by the
stable `List.insertionSort`), sequences the pairs, and returns the updated
pairs together with `len(combined) / 1000`, the reported total duration in
seconds. -/
def assembleTranslated (pieces : List (Segment × AudioSeg)) :
    List (Segment × AudioSeg) × ℚ :=
  let seq := sequencePieces (List.insertionSort pieceLe pieces) 0
  (seq, (pyRound (combineSegs (seq.map (fun p => p.2))).durMs : ℚ) / 1000)

/-- Python `str.strip()`: drop whitespace from both ends of a line. -/
def pyStrip (cs : List Char) : List Char :=
  ((cs.dropWhile Char.isWhitespace).reverse.dropWhile Char.isWhitespace).reverse

/-- Helper for `pySplitlines`: split on every newline character, keeping a
trailing empty piece. -/
def splitLinesRaw : List Char → List (List Char)
  | [] => [[]]
  | c :: cs =>
    let r := splitLinesRaw cs
    if c = '\n' then [] :: r
    else
      match r with
      | [] => [[c]]
      | l :: ls => (c :: l) :: ls

/-- Python `str.splitlines()`, modelled for newline-terminated text: Python
returns no trailing empty line for text ending in a newline, and an empty
list for the empty string. -/
def pySplitlines (cs : List Char) : List (List Char) :=
  let r := splitLinesRaw cs
  if r.getLast? = some [] then r.dropLast else r

/-- Python `line[0].isdigit()` guarded by nonemptiness (an empty Python
string is falsy, so `line and line[0].isdigit()` is `False` for `""`). -/
def startsWithDigit : List Char → Bool
  | [] => false
  | c :: _ => c.isDigit

/-- Python `sep in line` for a one-character separator. -/
def hasChar (cs : List Char) (c : Char) : Bool := cs.any (fun d => d == c)

/-- The second component of Python `line.split(sep, 1)` when `sep` occurs in
`line`: everything after the first occurrence. -/
def afterFirst (cs : List Char) (sep : Char) : List Char :=
  (cs.dropWhile (fun d => d != sep)).tail

/-- One line of the primary parsing pass of `GeminiClient.translate_lines`
(src/gemini_client.py:66-81).  When the separator occurs, Python's
`split(sep, 1)` always yields exactly two parts, so the `len(parts) != 2`
branch of the source is unreachable and the remainder is stripped and
kept. -/
def parseLine (line : List Char) : List Char :=
  if hasChar line '.' && startsWithDigit line then pyStrip (afterFirst line '.')
  else if hasChar line ')' && startsWithDigit line then pyStrip (afterFirst line ')')
  else line

/-- The primary parsing pass of `translate_lines`
(src/gemini_client.py:60-81): split the response into lines, strip each,
skip empties, and parse each remaining line. -/
def primaryParse (text : List Char) : List (List Char) :=
  (((pySplitlines text).map pyStrip).filter (fun l => !l.isEmpty)).map parseLine

/-- Python `any(c in line for c in "0123456789")`. -/
def hasDigit (cs : List Char) : Bool := cs.any Char.isDigit

/-- The regex match `re.match(r'^\d+[\.\)]\s*(.+)', line)` followed by
`match.group(1).strip()` (src/gemini_client.py:94-96).  On a line free of
newline characters the match succeeds exactly when a nonempty digit prefix
is followed by `'.'` or `')'` and at least one further character; greedy
`\s*` plus the final `strip()` make the extracted group equal to the
stripped tail. -/
def matchNumbered (line : List Char) : Option (List Char) :=
  let ds := line.takeWhile Char.isDigit
  match line.dropWhile Char.isDigit with
  | c :: after =>
    if (c = '.' ∨ c = ')') ∧ ds ≠ [] ∧ after ≠ [] then some (pyStrip after) else none
  | [] => none

/-- One line of the lenient recovery pass (src/gemini_client.py:88-99):
strip the line; `continue` past nonempty lines that do not start with a
digit; otherwise try the numbered-marker regex; otherwise keep a nonempty
line containing no digit characters. -/
def fallbackLine (raw : List Char) : Option (List Char) :=
  let line := pyStrip raw
  if !line.isEmpty && !(startsWithDigit line) then none
  else
    match matchNumbered line with
    | some g => some g
    | none => if !line.isEmpty && !(hasDigit line) then some line else none

/-- The lenient recovery pass of `translate_lines`
(src/gemini_client.py:84-99) applied to the whole response text. -/
def fallbackParse (text : List Char) : List (List Char) :=
  (pySplitlines text).filterMap fallbackLine

/-- The full response-parsing logic of `GeminiClient.translate_lines`
(src/gemini_client.py:59-106): `text` is the stripped response text and `n`
the number of input lines.  Primary parse; if the count differs from `n`,
the lenient recovery pass; if that also fails, the nonempty primary results,
or as a last resort the raw line split. -/
def translateParse (text : List Char) (n : ℕ) : List (List Char) :=
  let translated := primaryParse text
  if translated.length = n then translated
  else
    let fb := fallbackParse text
    if fb.length = n then fb
    else
      match translated.filter (fun t => !t.isEmpty) with
      | [] => pySplitlines text
      | l => l

/-- The translation-application loop of `VideoTranslationPipeline.run`
(src/pipeline.py:58-59): `for seg, translated in zip(segments,
translated_lines): seg.translated_text = translated`.  Segments beyond the
zip are left untouched. -/
def applyTranslations (segments : List Segment) (translated : List String) :
    List Segment :=
  List.zipWith (fun s t => { s with translated_text := some t }) segments translated
    ++ segments.drop translated.length

/-- Decimal digit rendering, fuel-driven so that the kernel can evaluate
it; `decReprAux (n+1) n` renders `n` in base 10. -/
def decReprAux : ℕ → ℕ → List Char
  | 0, _ => []
  | fuel + 1, n =>
    if n < 10 then [Char.ofNat (48 + n)]
    else decReprAux fuel (n / 10) ++ [Char.ofNat (48 + n % 10)]

/-- Decimal rendering of a natural number, as Python prints it. -/
def decRepr (n : ℕ) : List Char := decReprAux (n + 1) n

/-- Python `str(n)` for the nonnegative integers used as subtitle indices. -/
def pyStr (n : ℕ) : String := ⟨decRepr n⟩

/-- Left-pad a digit string with zeros to width `w`. -/
def padZeros (w : ℕ) (s : List Char) : List Char :=
  if s.length < w then List.replicate (w - s.length) '0' ++ s else s

/-- Python `f"{n:0wd}"`: minimum width `w`, zero padding after the sign. -/
def padInt (w : ℕ) (n : ℤ) : String :=
  if n < 0 then ⟨'-' :: padZeros (w - 1) (decRepr (-n).toNat)⟩
  else ⟨padZeros w (decRepr n.toNat)⟩

/-- Model of `format_timestamp` (src/transcription.py:38-43).  Python's
`divmod` on integers is floor division with remainder, i.e.
`Int.ediv`/`Int.emod`. -/
def format_timestamp (seconds : ℚ) : String :=
  let millis := pyRound (seconds * 1000)
  let hours := millis / 3600000
  let r1 := millis % 3600000
  let minutes := r1 / 60000
  let r2 := r1 % 60000
  let secs := r2 / 1000
  let ms := r2 % 1000
  padInt 2 hours ++ ":" ++ padInt 2 minutes ++ ":" ++ padInt 2 secs ++ "," ++ padInt 3 ms

/-- The text selected for a subtitle block (src/transcription.py:54):
`seg.translated_text if use_translated and seg.translated_text else
seg.text`; `None` and the empty string are falsy. -/
def selectedText (seg : Segment) (useTranslated : Bool) : String :=
  match useTranslated, seg.translated_text with
  | true, some t => if t = "" then seg.text else t
  | _, _ => seg.text

/-- Python `str.strip()` on a `String`. -/
def stripStr (s : String) : String := ⟨pyStrip s.data⟩

/-- The timing line of a subtitle block (src/transcription.py:58-61):
achieved timing only when requested and both fields are set, else nominal
timing. -/
def timingLine (seg : Segment) (useActual : Bool) : String :=
  if useActual then
    match seg.actual_start, seg.actual_end with
    | some a, some b => format_timestamp a ++ " --> " ++ format_timestamp b
    | _, _ => format_timestamp seg.start ++ " --> " ++ format_timestamp seg.endTime
  else format_timestamp seg.start ++ " --> " ++ format_timestamp seg.endTime

/-- The line-accumulation loop of `write_srt` (src/transcription.py:52-63):
skip segments whose selected text is empty, else append index, timing,
stripped text and a blank separator line. -/
def srtLines : List Segment → Bool → Bool → List String
  | [], _, _ => []
  | seg :: rest, ut, ua =>
    let text := selectedText seg ut
    if text = "" then srtLines rest ut ua
    else pyStr seg.index :: timingLine seg ua :: stripStr text :: "" :: srtLines rest ut ua

/-- Model of `write_srt` (src/transcription.py:46-66): the file content is
the accumulated lines joined by newlines. -/
def write_srt (segs : List Segment) (ut ua : Bool) : String :=
  String.intercalate "\n" (srtLines segs ut ua)

/-- One subtitle block, as emitted by `write_srt` for a kept segment. -/
def srtBlock (seg : Segment) (ut ua : Bool) : List String :=
  [pyStr seg.index, timingLine seg ua, stripStr (selectedText seg ut), ""]

/-- The three (segment, clip) pairs of the spec's assembler scenario:
nominal spans (0,2), (2,5), (5,6) and synthesized clip durations 2500,
2000 and 1200 ms, taken at a 24000 Hz frame rate. -/
def scenarioPieces : List (Segment × AudioSeg) :=
  [((⟨1, 0, 2, "a", some "x", none, none⟩ : Segment), (⟨2500, 24000⟩ : AudioSeg)),
   ((⟨2, 2, 5, "b", some "y", none, none⟩ : Segment), (⟨2000, 24000⟩ : AudioSeg)),
   ((⟨3, 5, 6, "c", some "z", none, none⟩ : Segment), (⟨1200, 24000⟩ : AudioSeg))]

/-- Restate `pyRound` through the `⌊⌋` notation, for `norm_num`
(`Rat.floor` is definitionally the `⌊⌋` of `ℚ`). -/
theorem pyRound_eq (q : ℚ) :
    pyRound q = if q - ⌊q⌋ < 1/2 then ⌊q⌋
      else if q - ⌊q⌋ > 1/2 then ⌊q⌋ + 1
      else if ⌊q⌋ % 2 = 0 then ⌊q⌋ else ⌊q⌋ + 1 := rfl

/-- Restate `pyInt` through the `⌊⌋` notation, for `norm_num`. -/
theorem pyInt_eq (q : ℚ) : pyInt q = if 0 ≤ q then ⌊q⌋ else -⌊-q⌋ := rfl

theorem pyRound_nonneg {q : ℚ} (h : 0 ≤ q) : 0 ≤ pyRound q := by
  rw [pyRound_eq]
  have h0 : (0 : ℤ) ≤ ⌊q⌋ := Int.floor_nonneg.mpr h
  split_ifs <;> omega

theorem stretch_durMs_nonneg (p : AudioSeg) (t : ℤ) (h : 0 ≤ p.durMs) :
    0 ≤ (timeStretchToDuration p t).durMs := by
  simp only [timeStretchToDuration]
  split_ifs with h1 h2 h3
  · exact h
  · exact h
  · exact h
  · have hf : (0 : ℤ) < pyInt ((p.frameRate : ℚ) * clampQuot ((lenMs p : ℚ) / (t : ℚ))) := by
      omega
    refine div_nonneg (mul_nonneg h (by positivity)) ?_
    exact_mod_cast le_of_lt hf

theorem lenMs_nonneg (p : AudioSeg) (h : 0 ≤ p.durMs) : 0 ≤ lenMs p :=
  pyRound_nonneg h

/-- The adjusted clip of one assembly step keeps a nonnegative duration. -/
theorem adjusted_durMs_nonneg (p : AudioSeg) (t : ℤ) (h : 0 ≤ p.durMs) :
    0 ≤ (if t > 0 then timeStretchToDuration p t else p).durMs := by
  split_ifs with h1
  · exact stretch_durMs_nonneg p t h
  · exact h

theorem sequencePieces_chain (ps : List (Segment × AudioSeg)) (pos : ℤ) :
    List.Chain' (fun a b => a.1.actual_end = b.1.actual_start)
      (sequencePieces ps pos) := by
  induction ps generalizing pos with
  | nil => simp [sequencePieces]
  | cons hd tl ih =>
    obtain ⟨seg, piece⟩ := hd
    simp only [sequencePieces]
    refine List.Chain'.cons' (ih _) ?_
    intro b hb
    cases tl with
    | nil => simp [sequencePieces] at hb
    | cons hd2 tl2 =>
      obtain ⟨seg2, piece2⟩ := hd2
      simp only [sequencePieces, List.head?_cons, Option.mem_def, Option.some.injEq] at hb
      subst hb
      simp only
      push_cast
      ring_nf

theorem sequencePieces_actual_bounds (ps : List (Segment × AudioSeg)) (pos : ℤ)
    (hpos : ∀ p ∈ ps, 0 ≤ p.2.durMs) :
    ∀ p ∈ sequencePieces ps pos, ∃ a b,
      p.1.actual_start = some a ∧ p.1.actual_end = some b ∧ a ≤ b := by
  induction ps generalizing pos with
  | nil => simp [sequencePieces]
  | cons hd tl ih =>
    obtain ⟨seg, piece⟩ := hd
    intro p hp
    simp only [sequencePieces, List.mem_cons] at hp
    rcases hp with hp | hp
    · subst hp
      refine ⟨_, _, rfl, rfl, ?_⟩
      have hd0 : 0 ≤ piece.durMs := hpos _ (List.mem_cons_self _ _)
      have hlen : (0 : ℤ) ≤ lenMs (if pyInt ((seg.endTime - seg.start) * 1000) > 0
          then timeStretchToDuration piece (pyInt ((seg.endTime - seg.start) * 1000))
          else piece) :=
        lenMs_nonneg _ (adjusted_durMs_nonneg piece _ hd0)
      have : (0 : ℚ) ≤ (lenMs (if pyInt ((seg.endTime - seg.start) * 1000) > 0
          then timeStretchToDuration piece (pyInt ((seg.endTime - seg.start) * 1000))
          else piece) : ℚ) / 1000 := by
        apply div_nonneg _ (by norm_num)
        exact_mod_cast hlen
      linarith
    · exact ih _ (fun q hq => hpos q (List.mem_cons_of_mem _ hq)) p hp

theorem foldl_addSeg_durMs (l : List AudioSeg) (acc : AudioSeg) :
    (l.foldl addSeg acc).durMs = acc.durMs + (l.map AudioSeg.durMs).sum := by
  induction l generalizing acc with
  | nil => simp
  | cons a rest ih =>
    simp only [List.foldl_cons, List.map_cons, List.sum_cons, ih]
    simp [addSeg]
    ring

theorem combineSegs_durMs (l : List AudioSeg) :
    (combineSegs l).durMs = (l.map AudioSeg.durMs).sum := by
  cases l with
  | nil => simp [combineSegs]
  | cons a rest => simp [combineSegs, foldl_addSeg_durMs]

/-- C1: in the sequence assembled by `synthesize_translated_audio`, ordered
by nominal start, the achieved start of segment `i+1` equals the achieved
end of segment `i` exactly, every sequenced segment has
`actual_end ≥ actual_start`, and the combined track's duration equals the
sum of the (possibly time-stretched) clip durations. -/
theorem assemble_zero_gap_invariant (pieces : List (Segment × AudioSeg))
    (hpos : ∀ p ∈ pieces, 0 ≤ p.2.durMs) :
    (∀ i (h : i + 1 < (assembleTranslated pieces).1.length),
        (((assembleTranslated pieces).1.get ⟨i + 1, h⟩).1).actual_start
          = (((assembleTranslated pieces).1.get ⟨i, Nat.lt_of_succ_lt h⟩).1).actual_end) ∧
    (∀ p ∈ (assembleTranslated pieces).1, ∃ a b,
        p.1.actual_start = some a ∧ p.1.actual_end = some b ∧ a ≤ b) ∧
    (combineSegs ((assembleTranslated pieces).1.map (fun p => p.2))).durMs
      = (((assembleTranslated pieces).1.map (fun p => p.2)).map AudioSeg.durMs).sum := by
  have hseq : (assembleTranslated pieces).1
      = sequencePieces (List.insertionSort pieceLe pieces) 0 := rfl
  refine ⟨?_, ?_, combineSegs_durMs _⟩
  · intro i h
    have hc := List.chain'_iff_get.mp
      (sequencePieces_chain (List.insertionSort pieceLe pieces) 0)
    have h' : i + 1 < (sequencePieces (List.insertionSort pieceLe pieces) 0).length := h
    have hlt : i < (sequencePieces (List.insertionSort pieceLe pieces) 0).length - 1 := by
      omega
    exact (hc i hlt).symm
  · rw [hseq]
    refine sequencePieces_actual_bounds _ _ ?_
    intro p hp
    exact hpos p (((List.perm_insertionSort pieceLe pieces).mem_iff).mp hp)

theorem assemble_zero_gap_witness :
    (∀ p ∈ [((⟨1, 0, 2, "a", some "x", none, none⟩ : Segment),
        (⟨2500, 24000⟩ : AudioSeg))], 0 ≤ p.2.durMs) ∧
    (∀ p ∈ (assembleTranslated [((⟨1, 0, 2, "a", some "x", none, none⟩ : Segment),
        (⟨2500, 24000⟩ : AudioSeg))]).1, ∃ a b,
        p.1.actual_start = some a ∧ p.1.actual_end = some b ∧ a ≤ b) := by
  have h : ∀ p ∈ [((⟨1, 0, 2, "a", some "x", none, none⟩ : Segment),
      (⟨2500, 24000⟩ : AudioSeg))], 0 ≤ p.2.durMs := by
    intro p hp
    simp only [List.mem_singleton] at hp
    subst hp
    norm_num
  exact ⟨h, (assemble_zero_gap_invariant _ h).2.1⟩

/-- Stable sorts of two permutations of the same pairs agree when the sort
keys (the nominal starts) are pairwise distinct. -/
theorem insertionSort_eq_of_perm (p₁ p₂ : List (Segment × AudioSeg))
    (hperm : p₁.Perm p₂)
    (hnodup : (p₁.map (fun p => p.1.start)).Nodup) :
    List.insertionSort pieceLe p₁ = List.insertionSort pieceLe p₂ := by
  have s₁ := List.sorted_insertionSort pieceLe p₁
  have s₂ := List.sorted_insertionSort pieceLe p₂
  have hp₁ := List.perm_insertionSort pieceLe p₁
  have hp₂ := List.perm_insertionSort pieceLe p₂
  have hperm' : (List.insertionSort pieceLe p₁).Perm (List.insertionSort pieceLe p₂) :=
    hp₁.trans (hperm.trans hp₂.symm)
  have hn₁ : ((List.insertionSort pieceLe p₁).map (fun p => p.1.start)).Nodup :=
    ((hp₁.map (fun p => p.1.start)).nodup_iff).mpr hnodup
  have hn₂ : ((List.insertionSort pieceLe p₂).map (fun p => p.1.start)).Nodup :=
    ((hperm'.map (fun p => p.1.start)).nodup_iff).mp hn₁
  have t₁ : (List.insertionSort pieceLe p₁).Pairwise pieceLt :=
    (List.Pairwise.and s₁ (List.pairwise_map.mp hn₁)).imp
      (fun hab => lt_of_le_of_ne hab.1 hab.2)
  have t₂ : (List.insertionSort pieceLe p₂).Pairwise pieceLt :=
    (List.Pairwise.and s₂ (List.pairwise_map.mp hn₂)).imp
      (fun hab => lt_of_le_of_ne hab.1 hab.2)
  exact List.eq_of_perm_of_sorted hperm' t₁ t₂

/-- C2 counterexample: two completion orders of the same pairs, with two
segments sharing the same nominal start, assemble to different outputs —
the stable re-sort preserves the arrival order of equal keys. -/
theorem assemble_completion_order_cex :
    assembleTranslated
        [((⟨1, 0, 1, "a", some "x", none, none⟩ : Segment), (⟨1000, 24000⟩ : AudioSeg)),
         ((⟨2, 0, 1, "b", some "y", none, none⟩ : Segment), (⟨2000, 24000⟩ : AudioSeg))]
      ≠ assembleTranslated
        [((⟨2, 0, 1, "b", some "y", none, none⟩ : Segment), (⟨2000, 24000⟩ : AudioSeg)),
         ((⟨1, 0, 1, "a", some "x", none, none⟩ : Segment), (⟨1000, 24000⟩ : AudioSeg))] := by
  intro heq
  have h1 : (assembleTranslated
      [((⟨1, 0, 1, "a", some "x", none, none⟩ : Segment), (⟨1000, 24000⟩ : AudioSeg)),
       ((⟨2, 0, 1, "b", some "y", none, none⟩ : Segment), (⟨2000, 24000⟩ : AudioSeg))]).1.map
        (fun p => p.1.index) = [1, 2] := by
    norm_num [assembleTranslated, sequencePieces, List.insertionSort, List.orderedInsert, pieceLe]
  have h2 : (assembleTranslated
      [((⟨2, 0, 1, "b", some "y", none, none⟩ : Segment), (⟨2000, 24000⟩ : AudioSeg)),
       ((⟨1, 0, 1, "a", some "x", none, none⟩ : Segment), (⟨1000, 24000⟩ : AudioSeg))]).1.map
        (fun p => p.1.index) = [2, 1] := by
    norm_num [assembleTranslated, sequencePieces, List.insertionSort, List.orderedInsert, pieceLe]
  have h12 : ([1, 2] : List ℕ) = [2, 1] := by
    rw [← h1, ← h2]
    exact congrArg (fun out => out.1.map (fun p => p.1.index)) heq
  exact absurd h12 (by decide)

/-- C2 amended: provided the nominal starts of the collected pairs are
pairwise distinct, any two completion orders (permutations) of the
collected (segment, clip) pairs assemble to exactly the same output, because
the pairs are re-sorted by nominal start before assembly. -/
theorem assemble_perm_invariant (p₁ p₂ : List (Segment × AudioSeg))
    (hperm : p₁.Perm p₂)
    (hnodup : (p₁.map (fun p => p.1.start)).Nodup) :
    assembleTranslated p₁ = assembleTranslated p₂ := by
  have h := insertionSort_eq_of_perm p₁ p₂ hperm hnodup
  simp only [assembleTranslated, h]

theorem assemble_perm_invariant_witness :
    ([((⟨1, 0, 1, "a", some "x", none, none⟩ : Segment), (⟨1000, 24000⟩ : AudioSeg)),
      ((⟨2, 1, 2, "b", some "y", none, none⟩ : Segment), (⟨2000, 24000⟩ : AudioSeg))].Perm
      [((⟨2, 1, 2, "b", some "y", none, none⟩ : Segment), (⟨2000, 24000⟩ : AudioSeg)),
       ((⟨1, 0, 1, "a", some "x", none, none⟩ : Segment), (⟨1000, 24000⟩ : AudioSeg))]) ∧
    (([((⟨1, 0, 1, "a", some "x", none, none⟩ : Segment), (⟨1000, 24000⟩ : AudioSeg)),
      ((⟨2, 1, 2, "b", some "y", none, none⟩ : Segment), (⟨2000, 24000⟩ : AudioSeg))].map
        (fun p => p.1.start)).Nodup) ∧
    assembleTranslated
        [((⟨1, 0, 1, "a", some "x", none, none⟩ : Segment), (⟨1000, 24000⟩ : AudioSeg)),
         ((⟨2, 1, 2, "b", some "y", none, none⟩ : Segment), (⟨2000, 24000⟩ : AudioSeg))]
      = assembleTranslated
        [((⟨2, 1, 2, "b", some "y", none, none⟩ : Segment), (⟨2000, 24000⟩ : AudioSeg)),
         ((⟨1, 0, 1, "a", some "x", none, none⟩ : Segment), (⟨1000, 24000⟩ : AudioSeg))] := by
  have hperm := List.Perm.swap
    ((⟨2, 1, 2, "b", some "y", none, none⟩ : Segment), (⟨2000, 24000⟩ : AudioSeg))
    ((⟨1, 0, 1, "a", some "x", none, none⟩ : Segment), (⟨1000, 24000⟩ : AudioSeg)) []
  have hnodup : (([((⟨1, 0, 1, "a", some "x", none, none⟩ : Segment), (⟨1000, 24000⟩ : AudioSeg)),
      ((⟨2, 1, 2, "b", some "y", none, none⟩ : Segment), (⟨2000, 24000⟩ : AudioSeg))].map
        (fun p => p.1.start)).Nodup) := by
    norm_num
  exact ⟨hperm, hnodup, assemble_perm_invariant _ _ hperm hnodup⟩

theorem clampQuot_le (q : ℚ) : clampQuot q ≤ 1 + 1/4 := by
  unfold clampQuot
  split_ifs with h1 h2
  · exact le_refl _
  · norm_num
  · linarith [not_lt.mp h1]

theorem clampQuot_ge (q : ℚ) : 1 - 1/4 ≤ clampQuot q := by
  unfold clampQuot
  split_ifs with h1 h2
  · norm_num
  · exact le_refl _
  · linarith [not_lt.mp h2]

theorem clampQuot_pos (q : ℚ) : 0 < clampQuot q :=
  lt_of_lt_of_le (by norm_num) (clampQuot_ge q)

theorem clampQuot_eq_self {q : ℚ} (h1 : 1 - 1/4 ≤ q) (h2 : q ≤ 1 + 1/4) :
    clampQuot q = q := by
  unfold clampQuot
  rw [if_neg (not_lt.mpr h2), if_neg (not_lt.mpr h1)]

theorem pyInt_le {q : ℚ} (h : 0 ≤ q) : (pyInt q : ℚ) ≤ q := by
  rw [pyInt_eq, if_pos h]
  exact Int.floor_le q

/-- C3 counterexample: a 1500 ms clip at the standard 22050 Hz frame rate
against a 3000 ms target is outside the 5% dead zone, yet the stretched
duration exceeds `D / 0.75`, because `int(frame_rate * ratio)` truncates
`16537.5` to `16537`. -/
theorem stretch_interval_cex :
    (1 : ℚ)/20 ≤ |((⟨1500, 22050⟩ : AudioSeg)).durMs / 3000 - 1| ∧
    ¬ (timeStretchToDuration (⟨1500, 22050⟩ : AudioSeg) 3000).durMs
        ≤ ((⟨1500, 22050⟩ : AudioSeg)).durMs / (3/4) := by
  constructor
  · have h : ((⟨1500, 22050⟩ : AudioSeg)).durMs / 3000 - 1 = -(1/2 : ℚ) := by norm_num
    rw [h, abs_neg, abs_of_nonneg (by norm_num : (0:ℚ) ≤ 1/2)]
    norm_num
  · norm_num [timeStretchToDuration, lenMs, pyRound_eq, pyInt_eq, clampQuot, abs_lt]

/-- C3 amended: for a clip of whole-millisecond duration `D = durMs` and
target `T`: degenerate targets and empty clips are returned unchanged; a
ratio within 5% of unity is returned unchanged; the output duration never
falls below `D / 1.25`; and whenever `frame_rate * clamped_ratio` is an
integer (no truncation loss in `int()`), the output duration equals
`D / clamped_ratio`, hence lies in `[D/1.25, D/0.75]` and equals `T`
exactly when `D/T` was already within the `[0.75, 1.25]` clamp window. -/
theorem stretch_bounds (p : AudioSeg) (t : ℤ)
    (hd : 0 ≤ p.durMs) (hint : (lenMs p : ℚ) = p.durMs) :
    (t ≤ 0 ∨ lenMs p = 0 → timeStretchToDuration p t = p) ∧
    (0 < t → |p.durMs / t - 1| < 1/20 → timeStretchToDuration p t = p) ∧
    p.durMs / (5/4) ≤ (timeStretchToDuration p t).durMs ∧
    (0 < t → 0 < p.durMs → 1/20 ≤ |p.durMs / t - 1| →
      (pyInt ((p.frameRate : ℚ) * clampQuot (p.durMs / t)) : ℚ)
        = (p.frameRate : ℚ) * clampQuot (p.durMs / t) →
      0 < p.frameRate →
      (timeStretchToDuration p t).durMs = p.durMs / clampQuot (p.durMs / t) ∧
      (timeStretchToDuration p t).durMs ≤ p.durMs / (3/4) ∧
      (3/4 ≤ p.durMs / t → p.durMs / t ≤ 5/4 →
        (timeStretchToDuration p t).durMs = t)) := by
  refine ⟨?_, ?_, ?_, ?_⟩
  · intro h
    simp only [timeStretchToDuration]
    rw [if_pos h]
  · intro ht habs
    have ht' : (0:ℚ) < (t:ℚ) := by exact_mod_cast ht
    have h1 : -(1/20 : ℚ) < p.durMs / t - 1 := (abs_lt.mp habs).1
    have hqpos : (0:ℚ) < p.durMs / t := by linarith
    have hdpos : 0 < p.durMs := by
      have hm := mul_pos hqpos ht'
      rwa [div_mul_cancel₀ _ (ne_of_gt ht')] at hm
    have hguard : ¬ (t ≤ 0 ∨ lenMs p = 0) := by
      refine not_or.mpr ⟨not_le.mpr ht, ?_⟩
      intro h0
      rw [h0] at hint
      norm_num at hint
      linarith
    simp only [timeStretchToDuration]
    rw [if_neg hguard, hint, if_pos habs]
  · simp only [timeStretchToDuration]
    split_ifs with h1 h2 h3
    · rw [div_le_iff₀ (by norm_num : (0:ℚ) < 5/4)]
      nlinarith
    · rw [div_le_iff₀ (by norm_num : (0:ℚ) < 5/4)]
      nlinarith
    · rw [div_le_iff₀ (by norm_num : (0:ℚ) < 5/4)]
      nlinarith
    · have hrle := clampQuot_le ((lenMs p : ℚ) / (t:ℚ))
      have hrpos := clampQuot_pos ((lenMs p : ℚ) / (t:ℚ))
      have hfr0 : (0:ℚ) ≤ (p.frameRate : ℚ) := Nat.cast_nonneg _
      have hle : (pyInt ((p.frameRate : ℚ) * clampQuot ((lenMs p : ℚ) / (t:ℚ))) : ℚ)
          ≤ (p.frameRate : ℚ) * clampQuot ((lenMs p : ℚ) / (t:ℚ)) :=
        pyInt_le (mul_nonneg hfr0 (le_of_lt hrpos))
      have hnfrpos : (0:ℤ) < pyInt ((p.frameRate : ℚ) * clampQuot ((lenMs p : ℚ) / (t:ℚ))) :=
        not_le.mp h3
      have hnfrQ : (0:ℚ)
          < (pyInt ((p.frameRate : ℚ) * clampQuot ((lenMs p : ℚ) / (t:ℚ))) : ℚ) := by
        exact_mod_cast hnfrpos
      simp only
      rw [div_le_div_iff₀ (by norm_num : (0:ℚ) < 5/4) hnfrQ]
      have hstep : (p.frameRate : ℚ) * clampQuot ((lenMs p : ℚ) / (t:ℚ))
          ≤ (p.frameRate : ℚ) * (5/4) :=
        mul_le_mul_of_nonneg_left (by linarith) hfr0
      nlinarith
  · intro ht hdpos habs hexact hfrpos
    have ht' : (0:ℚ) < (t:ℚ) := by exact_mod_cast ht
    have hguard : ¬ (t ≤ 0 ∨ lenMs p = 0) := by
      refine not_or.mpr ⟨not_le.mpr ht, ?_⟩
      intro h0
      rw [h0] at hint
      norm_num at hint
      linarith
    have hrpos := clampQuot_pos (p.durMs / t)
    have hfrQ : (0:ℚ) < (p.frameRate : ℚ) := by exact_mod_cast hfrpos
    have hnfrpos : ¬ (pyInt ((p.frameRate : ℚ) * clampQuot (p.durMs / t)) ≤ 0) := by
      rw [not_le]
      have hx : (0:ℚ) < (p.frameRate : ℚ) * clampQuot (p.durMs / t) := mul_pos hfrQ hrpos
      have hx2 : (0:ℚ) < (pyInt ((p.frameRate : ℚ) * clampQuot (p.durMs / t)) : ℚ) := by
        rw [hexact]; exact hx
      exact_mod_cast hx2
    have hmain : timeStretchToDuration p t
        = ⟨p.durMs * p.frameRate / (pyInt ((p.frameRate : ℚ) * clampQuot (p.durMs / t)) : ℚ),
           p.frameRate⟩ := by
      simp only [timeStretchToDuration]
      rw [if_neg hguard, hint, if_neg (not_lt.mpr habs), if_neg hnfrpos]
    have hdur : (timeStretchToDuration p t).durMs = p.durMs / clampQuot (p.durMs / t) := by
      rw [hmain]
      simp only
      rw [hexact, div_eq_div_iff (ne_of_gt (mul_pos hfrQ hrpos)) (ne_of_gt hrpos)]
      ring
    refine ⟨hdur, ?_, ?_⟩
    · rw [hdur, div_le_div_iff₀ hrpos (by norm_num : (0:ℚ) < 3/4)]
      have := clampQuot_ge (p.durMs / t)
      nlinarith
    · intro hge hle2
      have hself : clampQuot (p.durMs / t) = p.durMs / t :=
        clampQuot_eq_self (by linarith) (by linarith)
      rw [hdur, hself, div_div_eq_mul_div, mul_comm, mul_div_assoc,
        div_self (ne_of_gt hdpos), mul_one]

theorem stretch_bounds_witness :
    (0 ≤ ((⟨2500, 24000⟩ : AudioSeg)).durMs) ∧
    ((lenMs (⟨2500, 24000⟩ : AudioSeg) : ℚ) = ((⟨2500, 24000⟩ : AudioSeg)).durMs) ∧
    ((⟨2500, 24000⟩ : AudioSeg)).durMs / (5/4)
      ≤ (timeStretchToDuration (⟨2500, 24000⟩ : AudioSeg) 2000).durMs := by
  have h1 : (0:ℚ) ≤ ((⟨2500, 24000⟩ : AudioSeg)).durMs := by norm_num
  have h2 : (lenMs (⟨2500, 24000⟩ : AudioSeg) : ℚ) = ((⟨2500, 24000⟩ : AudioSeg)).durMs := by
    norm_num [lenMs, pyRound_eq]
  exact ⟨h1, h2, (stretch_bounds (⟨2500, 24000⟩ : AudioSeg) 2000 h1 h2).2.2.1⟩

/-- C7 counterexample: the claimed achieved timings (0, 2.5), (2.5, 4.5),
(4.5, 5.7) and total 5.7 s do not hold — they would require the assembler
to skip the gentle time-stretch, but the clips here are 25%, 33% and 20%
away from their nominal spans and are stretched. -/
theorem scenario_timing_cex :
    ¬ ((assembleTranslated scenarioPieces).1.map
          (fun p => (p.1.actual_start, p.1.actual_end))
        = [(some 0, some (5/2)), (some (5/2), some (9/2)),
           (some (9/2), some (57/10))]) := by
  intro h1
  have heval : (assembleTranslated scenarioPieces).1.map
      (fun p => (p.1.actual_start, p.1.actual_end))
      = [(some 0, some 2), (some 2, some (4667/1000)),
         (some (4667/1000), some (5667/1000))] := by
    norm_num [scenarioPieces, assembleTranslated, sequencePieces, List.insertionSort,
      List.orderedInsert, pieceLe, timeStretchToDuration, lenMs, pyRound_eq, pyInt_eq,
      clampQuot, abs_lt, combineSegs, addSeg]
  rw [heval] at h1
  norm_num at h1

/-- C7 amended: on the scenario input (0,2), (2,5), (5,6) with clip
durations 2500, 2000 and 1200 ms at 24000 Hz, the clips are first
time-stretched toward their nominal spans (to 2000 ms, 8000/3 ms and
1000 ms), so the assembler produces achieved timings (0, 2), (2, 4.667),
(4.667, 5.667), a combined track of 17000/3 ms, and a reported total of
5.667 s. -/
theorem scenario_timing_amended :
    (assembleTranslated scenarioPieces).1.map
        (fun p => (p.1.actual_start, p.1.actual_end))
      = [(some 0, some 2), (some 2, some (4667/1000)),
         (some (4667/1000), some (5667/1000))]
    ∧ (assembleTranslated scenarioPieces).2 = 5667/1000
    ∧ (combineSegs ((assembleTranslated scenarioPieces).1.map (fun p => p.2))).durMs
        = 17000/3 := by
  norm_num [scenarioPieces, assembleTranslated, sequencePieces, List.insertionSort,
    List.orderedInsert, pieceLe, timeStretchToDuration, lenMs, pyRound_eq, pyInt_eq,
    clampQuot, abs_lt, combineSegs, addSeg]

theorem afterFirst_append (ds rest : List Char) (sep : Char)
    (h : ∀ c ∈ ds, c ≠ sep) :
    afterFirst (ds ++ sep :: rest) sep = rest := by
  induction ds with
  | nil =>
    simp [afterFirst, List.dropWhile_cons]
  | cons c cs ih =>
    have hc : (c != sep) = true := bne_iff_ne.mpr (h c (List.mem_cons_self c cs))
    simp only [List.cons_append, afterFirst, List.dropWhile_cons, hc, if_true]
    exact ih (fun d hd => h d (List.mem_cons_of_mem c hd))

/-- C4 counterexample: the line `"10 am. OK"` starts with digits but its
first `'.'` occurs later in the sentence; the claim says it is kept
verbatim, yet the primary pass splits at that first `'.'` and keeps only
`"OK"`. -/
theorem primary_keep_verbatim_cex :
    primaryParse ("10 am. OK").toList ≠ [("10 am. OK").toList] ∧
    primaryParse ("10 am. OK").toList = [("OK").toList] := by decide

/-- C4 amended: the primary pass keeps a line verbatim exactly when its
first character is not a digit or it contains neither `'.'` nor `')'`;
otherwise it strips everything up to and including the first `'.'`
(anywhere in the line, the `'.'` branch taking precedence over `')'`), or
failing that the first `')'`, and keeps the stripped remainder.  In
particular a leading `"<digits>."` marker is stripped with the remainder
kept, as the spec intends. -/
theorem primary_marker_strip (line : List Char) :
    ((¬ startsWithDigit line = true) ∨
        ((¬ hasChar line '.' = true) ∧ (¬ hasChar line ')' = true)) →
      parseLine line = line) ∧
    (startsWithDigit line = true → hasChar line '.' = true →
      parseLine line = pyStrip (afterFirst line '.')) ∧
    (startsWithDigit line = true → (¬ hasChar line '.' = true) →
      hasChar line ')' = true →
      parseLine line = pyStrip (afterFirst line ')')) ∧
    (∀ ds rest, ds ≠ [] → (∀ c ∈ ds, c.isDigit = true) →
      line = ds ++ '.' :: rest →
      parseLine line = pyStrip rest) := by
  refine ⟨?_, ?_, ?_, ?_⟩
  · intro h
    rcases h with h | ⟨h1, h2⟩
    · simp [parseLine, h]
    · simp [parseLine, h1, h2]
  · intro h1 h2
    simp [parseLine, h1, h2]
  · intro h1 h2 h3
    simp [parseLine, h1, h2, h3]
  · intro ds rest hne hdig hline
    subst hline
    have hnotdot : ∀ c ∈ ds, c ≠ '.' := by
      intro c hc heq
      have := hdig c hc
      rw [heq] at this
      exact absurd this (by decide)
    have hs : startsWithDigit (ds ++ '.' :: rest) = true := by
      cases ds with
      | nil => exact absurd rfl hne
      | cons c cs =>
        simp [startsWithDigit, hdig c (List.mem_cons_self c cs)]
    have hh : hasChar (ds ++ '.' :: rest) '.' = true := by
      simp [hasChar]
    simp [parseLine, hh, hs, afterFirst_append ds rest '.' hnotdot]

theorem primary_marker_strip_witness :
    startsWithDigit ("1. Bonjour").toList = true ∧
    hasChar ("1. Bonjour").toList '.' = true ∧
    parseLine ("1. Bonjour").toList = pyStrip (afterFirst ("1. Bonjour").toList '.') :=
  ⟨by decide, by decide,
    (primary_marker_strip ("1. Bonjour").toList).2.1 (by decide) (by decide)⟩

theorem startsWithDigit_hasDigit {l : List Char} (h : startsWithDigit l = true) :
    hasDigit l = true := by
  cases l with
  | nil => simp [startsWithDigit] at h
  | cons c cs =>
    simp only [startsWithDigit] at h
    simp [hasDigit, List.any_cons, h]

/-- C5 counterexample: for a 3-line response to a 2-line request, the
primary pass yields 3 entries, so recovery runs; the unnumbered, digit-free
line `"Salut le monde"` contributes nothing — it is skipped by the
`continue` guard before the digit-free branch can see it. -/
theorem fallback_unnumbered_cex :
    fallbackLine ("Salut le monde").toList = none ∧
    hasDigit ("Salut le monde").toList = false ∧
    (primaryParse ("1. Bonjour\nSalut le monde\n2. Oui").toList).length = 3 ∧
    fallbackParse ("1. Bonjour\nSalut le monde\n2. Oui").toList
      = [("Bonjour").toList, ("Oui").toList] ∧
    translateParse ("1. Bonjour\nSalut le monde\n2. Oui").toList 2
      = [("Bonjour").toList, ("Oui").toList] := by decide

/-- C5 amended: the lenient recovery pass keeps exactly the lines whose
stripped form matches the leading-number-marker pattern, extracting the
stripped remainder.  The digit-free branch of the source is unreachable:
any nonempty line not starting with a digit — in particular every
digit-free line — was already skipped by the preceding `continue`, and a
line that does start with a digit contains a digit. -/
theorem fallback_marker_only :
    (∀ raw : List Char, fallbackLine raw = matchNumbered (pyStrip raw)) ∧
    (∀ text : List Char, fallbackParse text
        = (pySplitlines text).filterMap (fun l => matchNumbered (pyStrip l))) := by
  have hline : ∀ raw : List Char, fallbackLine raw = matchNumbered (pyStrip raw) := by
    intro raw
    unfold fallbackLine
    by_cases h1 : (!(pyStrip raw).isEmpty && !startsWithDigit (pyStrip raw)) = true
    · rw [if_pos h1]
      rcases Bool.and_eq_true_iff.mp h1 with ⟨he, hsd⟩
      rw [Bool.not_eq_true'] at hsd
      cases hp : pyStrip raw with
      | nil => rw [hp] at he; simp at he
      | cons c cs =>
        rw [hp] at hsd
        simp only [startsWithDigit] at hsd
        simp [matchNumbered, List.dropWhile_cons, List.takeWhile_cons, hsd]
    · rw [if_neg h1]
      cases hm : matchNumbered (pyStrip raw) with
      | some g => simp [hm]
      | none =>
        simp only [hm]
        by_cases he : (pyStrip raw).isEmpty
        · simp [he]
        · have hs : startsWithDigit (pyStrip raw) = true := by
            cases hsd : startsWithDigit (pyStrip raw)
            · exact absurd (by simp [he, hsd]) h1
            · rfl
          simp [startsWithDigit_hasDigit hs]
  refine ⟨hline, ?_⟩
  intro text
  unfold fallbackParse
  exact List.filterMap_congr (fun l _ => hline l)

theorem applyTranslations_getElem_lt (segments : List Segment)
    (translated : List String) (i : ℕ) (t : String) (s : Segment)
    (ht : translated[i]? = some t) (hs : segments[i]? = some s) :
    (applyTranslations segments translated)[i]?
      = some { s with translated_text := some t } := by
  induction segments generalizing translated i with
  | nil => simp at hs
  | cons a segs ih =>
    cases translated with
    | nil => simp at ht
    | cons b ts =>
      cases i with
      | zero =>
        simp only [List.getElem?_cons_zero, Option.some.injEq] at ht hs
        subst ht
        subst hs
        simp [applyTranslations]
      | succ j =>
        simp only [List.getElem?_cons_succ] at ht hs
        have step : applyTranslations (a :: segs) (b :: ts)
            = { a with translated_text := some b } :: applyTranslations segs ts := by
          simp [applyTranslations]
        rw [step, List.getElem?_cons_succ]
        exact ih ts j ht hs

theorem applyTranslations_getElem_ge (segments : List Segment)
    (translated : List String) (i : ℕ) (s : Segment)
    (hge : translated.length ≤ i) (hs : segments[i]? = some s) :
    (applyTranslations segments translated)[i]? = some s := by
  induction segments generalizing translated i with
  | nil => simp at hs
  | cons a segs ih =>
    cases translated with
    | nil => simp [applyTranslations, hs]
    | cons b ts =>
      cases i with
      | zero => simp at hge
      | succ j =>
        simp only [List.getElem?_cons_succ] at hs
        have step : applyTranslations (a :: segs) (b :: ts)
            = { a with translated_text := some b } :: applyTranslations segs ts := by
          simp [applyTranslations]
        rw [step, List.getElem?_cons_succ]
        exact ih ts j (by simpa using hge) hs

/-- C6: when the translation list is no longer than the segment list, the
pipeline's zip sets `translated_text` on exactly the first `min(N, M) = M`
segments in order, leaves every later segment untouched (hence with
`translated_text = None`, since transcription produces segments with no
translation), and modifies no other segment field. -/
theorem zip_truncates (segments : List Segment) (translated : List String)
    (hlen : translated.length ≤ segments.length)
    (hnone : ∀ s ∈ segments, s.translated_text = none) :
    (applyTranslations segments translated).length = segments.length ∧
    (∀ (i : ℕ) (t : String) (s : Segment),
      translated[i]? = some t → segments[i]? = some s →
      (applyTranslations segments translated)[i]?
        = some { s with translated_text := some t }) ∧
    (∀ (i : ℕ) (s : Segment), translated.length ≤ i → segments[i]? = some s →
      (applyTranslations segments translated)[i]? = some s ∧
        s.translated_text = none) := by
  refine ⟨?_, ?_, ?_⟩
  · simp only [applyTranslations, List.length_append, List.length_zipWith,
      List.length_drop]
    omega
  · intro i t s ht hs
    exact applyTranslations_getElem_lt segments translated i t s ht hs
  · intro i s hge hs
    refine ⟨applyTranslations_getElem_ge segments translated i s hge hs, ?_⟩
    rcases List.getElem?_eq_some_iff.mp hs with ⟨hi, hv⟩
    exact hnone s (hv ▸ List.getElem_mem hi)

theorem zip_truncates_witness :
    ((["X"] : List String).length
        ≤ ([(⟨1, 0, 1, "a", none, none, none⟩ : Segment),
            (⟨2, 1, 2, "b", none, none, none⟩ : Segment)] : List Segment).length) ∧
    (applyTranslations
        [(⟨1, 0, 1, "a", none, none, none⟩ : Segment),
         (⟨2, 1, 2, "b", none, none, none⟩ : Segment)] ["X"]).length
      = ([(⟨1, 0, 1, "a", none, none, none⟩ : Segment),
          (⟨2, 1, 2, "b", none, none, none⟩ : Segment)] : List Segment).length := by
  have hlen : ((["X"] : List String).length
      ≤ ([(⟨1, 0, 1, "a", none, none, none⟩ : Segment),
          (⟨2, 1, 2, "b", none, none, none⟩ : Segment)] : List Segment).length) := by
    decide
  have hnone : ∀ s ∈ [(⟨1, 0, 1, "a", none, none, none⟩ : Segment),
      (⟨2, 1, 2, "b", none, none, none⟩ : Segment)], s.translated_text = none := by
    intro s hs
    rcases List.mem_cons.mp hs with rfl | hs
    · rfl
    · rcases List.mem_cons.mp hs with rfl | hs
      · rfl
      · simp at hs
  exact ⟨hlen, (zip_truncates _ _ hlen hnone).1⟩

theorem srtBlock_length (l : List Segment) (ut ua : Bool) :
    (l.flatMap (fun s => srtBlock s ut ua)).length = 4 * l.length := by
  induction l with
  | nil => simp
  | cons a rest ih =>
    rw [List.flatMap_cons, List.length_append, ih]
    simp only [srtBlock, List.length_cons, List.length_nil]
    omega

/-- C8: for every segment list and every flag combination, the lines
emitted by `write_srt` are exactly the four-line blocks of the segments
whose selected text is nonempty, in segment-list order; segments with
empty selected text are skipped, and each kept segment contributes one
block. -/
theorem write_srt_blocks (segs : List Segment) (ut ua : Bool) :
    srtLines segs ut ua
      = (segs.filter (fun s => !(selectedText s ut == ""))).flatMap
          (fun s => srtBlock s ut ua) ∧
    (srtLines segs ut ua).length
      = 4 * (segs.filter (fun s => !(selectedText s ut == ""))).length := by
  have h : srtLines segs ut ua
      = (segs.filter (fun s => !(selectedText s ut == ""))).flatMap
          (fun s => srtBlock s ut ua) := by
    induction segs with
    | nil => simp [srtLines]
    | cons a rest ih =>
      by_cases hsel : selectedText a ut = ""
      · simp [srtLines, hsel, List.filter_cons, ih]
      · simp [srtLines, hsel, List.filter_cons, ih, srtBlock]
  refine ⟨h, ?_⟩
  rw [h]
  exact srtBlock_length _ _ _

theorem padInt_len_two (n : ℤ) (h0 : 0 ≤ n) (h1 : n < 100) :
    (padInt 2 n).length = 2 := by
  lift n to ℕ using h0
  have hn : n < 100 := by exact_mod_cast h1
  exact (by decide : ∀ k : ℕ, k < 100 → (padInt 2 (k : ℤ)).length = 2) n hn

set_option maxRecDepth 8000 in
theorem padInt_len_three (n : ℤ) (h0 : 0 ≤ n) (h1 : n < 1000) :
    (padInt 3 n).length = 3 := by
  lift n to ℕ using h0
  have hn : n < 1000 := by exact_mod_cast h1
  exact (by decide : ∀ k : ℕ, k < 1000 → (padInt 3 (k : ℤ)).length = 3) n hn

theorem format_timestamp_millis (s : ℚ) (m : ℤ) (h : pyRound (s * 1000) = m) :
    format_timestamp s
      = padInt 2 (m / 3600000) ++ ":" ++ padInt 2 (m % 3600000 / 60000) ++ ":"
        ++ padInt 2 (m % 3600000 % 60000 / 1000) ++ ","
        ++ padInt 3 (m % 3600000 % 60000 % 1000) := by
  subst h
  rfl

/-- C9 counterexample: at 100 hours the hour field widens to three digits,
so the rendering is not in the fixed 12-character `HH:MM:SS,mmm` shape the
claim asserts for every nonnegative input. -/
theorem timestamp_two_digit_cex :
    format_timestamp 360000 = "100:00:00,000" ∧
    (format_timestamp 360000).length = 13 := by
  have h : format_timestamp 360000 = "100:00:00,000" := by
    rw [format_timestamp_millis 360000 360000000 (by norm_num [pyRound_eq])]
    decide
  exact ⟨h, by rw [h]; decide⟩

/-- C9 amended: for every nonnegative duration below 100 hours,
`format_timestamp` renders the rounded millisecond count in exact
zero-padded `HH:MM:SS,mmm` form — two digits of hours, minutes and
seconds, three digits of milliseconds, recoverable to the exact
millisecond — and the Subtitle Writer is deterministic: rendering the same
segments and flags twice gives byte-identical output.  (At or above 100
hours the hour field widens beyond two digits.) -/
theorem format_timestamp_spec (s : ℚ) (h0 : 0 ≤ s)
    (hcap : pyRound (s * 1000) < 360000000) :
    (∃ hh mm ss ms : ℤ,
      0 ≤ hh ∧ hh < 100 ∧ 0 ≤ mm ∧ mm < 60 ∧ 0 ≤ ss ∧ ss < 60 ∧
      0 ≤ ms ∧ ms < 1000 ∧
      pyRound (s * 1000) = ((hh * 60 + mm) * 60 + ss) * 1000 + ms ∧
      format_timestamp s
        = padInt 2 hh ++ ":" ++ padInt 2 mm ++ ":" ++ padInt 2 ss ++ "," ++ padInt 3 ms ∧
      (padInt 2 hh).length = 2 ∧ (padInt 2 mm).length = 2 ∧
      (padInt 2 ss).length = 2 ∧ (padInt 3 ms).length = 3) ∧
    (∀ (segs : List Segment) (ut ua : Bool),
      write_srt segs ut ua = write_srt segs ut ua) := by
  constructor
  · have ht0 : 0 ≤ pyRound (s * 1000) := pyRound_nonneg (by positivity)
    refine ⟨pyRound (s * 1000) / 3600000,
            pyRound (s * 1000) % 3600000 / 60000,
            pyRound (s * 1000) % 3600000 % 60000 / 1000,
            pyRound (s * 1000) % 3600000 % 60000 % 1000,
            ?_, ?_, ?_, ?_, ?_, ?_, ?_, ?_, ?_, ?_, ?_, ?_, ?_, ?_⟩
    · omega
    · omega
    · omega
    · omega
    · omega
    · omega
    · omega
    · omega
    · omega
    · exact format_timestamp_millis s (pyRound (s * 1000)) rfl
    · exact padInt_len_two _ (by omega) (by omega)
    · exact padInt_len_two _ (by omega) (by omega)
    · exact padInt_len_two _ (by omega) (by omega)
    · exact padInt_len_three _ (by omega) (by omega)
  · intro segs ut ua
    rfl

theorem format_timestamp_spec_witness :
    (0 : ℚ) ≤ 7322029/2000 ∧ pyRound ((7322029/2000 : ℚ) * 1000) < 360000000 ∧
    (∃ hh mm ss ms : ℤ,
      0 ≤ hh ∧ hh < 100 ∧ 0 ≤ mm ∧ mm < 60 ∧ 0 ≤ ss ∧ ss < 60 ∧
      0 ≤ ms ∧ ms < 1000 ∧
      pyRound ((7322029/2000 : ℚ) * 1000) = ((hh * 60 + mm) * 60 + ss) * 1000 + ms ∧
      format_timestamp (7322029/2000 : ℚ)
        = padInt 2 hh ++ ":" ++ padInt 2 mm ++ ":" ++ padInt 2 ss ++ "," ++ padInt 3 ms ∧
      (padInt 2 hh).length = 2 ∧ (padInt 2 mm).length = 2 ∧
      (padInt 2 ss).length = 2 ∧ (padInt 3 ms).length = 3) := by
  have h0 : (0 : ℚ) ≤ 7322029/2000 := by norm_num
  have hcap : pyRound ((7322029/2000 : ℚ) * 1000) < 360000000 := by
    norm_num [pyRound_eq]
  exact ⟨h0, hcap, (format_timestamp_spec _ h0 hcap).1⟩

/-- C10: with `use_actual_timing = True` and an unset `actual_start` or
`actual_end`, `write_srt` neither errors nor skips the segment: the block
is emitted with the nominal `start`/`end` timing. -/
theorem srt_actual_fallback (seg : Segment) (ut : Bool)
    (htext : selectedText seg ut ≠ "")
    (hmiss : seg.actual_start = none ∨ seg.actual_end = none) :
    timingLine seg true
        = format_timestamp seg.start ++ " --> " ++ format_timestamp seg.endTime ∧
    srtLines [seg] ut true
      = [pyStr seg.index,
         format_timestamp seg.start ++ " --> " ++ format_timestamp seg.endTime,
         stripStr (selectedText seg ut), ""] := by
  have ht : timingLine seg true
      = format_timestamp seg.start ++ " --> " ++ format_timestamp seg.endTime := by
    rcases hmiss with h | h
    · cases h2 : seg.actual_end <;> simp [timingLine, h, h2]
    · cases h2 : seg.actual_start <;> simp [timingLine, h, h2]
  refine ⟨ht, ?_⟩
  simp [srtLines, htext, ht]

theorem srt_actual_fallback_witness :
    (selectedText (⟨1, 0, 1, "hello", none, none, none⟩ : Segment) false ≠ "") ∧
    ((⟨1, 0, 1, "hello", none, none, none⟩ : Segment).actual_start = none ∨
      (⟨1, 0, 1, "hello", none, none, none⟩ : Segment).actual_end = none) ∧
    timingLine (⟨1, 0, 1, "hello", none, none, none⟩ : Segment) true
      = format_timestamp (⟨1, 0, 1, "hello", none, none, none⟩ : Segment).start
        ++ " --> "
        ++ format_timestamp (⟨1, 0, 1, "hello", none, none, none⟩ : Segment).endTime := by
  have h1 : selectedText (⟨1, 0, 1, "hello", none, none, none⟩ : Segment) false ≠ "" := by
    decide
  have h2 : (⟨1, 0, 1, "hello", none, none, none⟩ : Segment).actual_start = none ∨
      (⟨1, 0, 1, "hello", none, none, none⟩ : Segment).actual_end = none := Or.inl rfl
  exact ⟨h1, h2, (srt_actual_fallback _ false h1 h2).1⟩

